import Mathlib

/-!
Verification of the codedriver change-application pipeline.

This file gives a shallow embedding, in Lean 4, of the core of the
codedriver repository and proves properties of that embedding:

* `codedriver/agent.py`: `_hash_content` (an 8-hex-char truncated MD5),
  `_parse_file_changes` (the delimiter-anchored block scanner) and the
  verification/staging loop inside `process_changes`.
* `codedriver/testing.py`: `_ignore_patterns`, `_create_backup`,
  `_setup_preview_dir`, `_process_changes`, `_generate_patch_file` and
  `apply_changes_to_working`.

Strings are modelled as `List Char` (`Str`), file contents as `Str`,
trees of files as association lists or as a mutual inductive
file-system forest where the recursive directory copy matters.
Machine-level 32-bit arithmetic inside MD5 is `Nat` with explicit
masking by `2^32 - 1`.  Every definition is executable so that the
theorems can be instantiated on concrete inputs by `decide` / `rfl`.
-/

set_option maxRecDepth 100000

/-- Strings are modelled as lists of characters. -/
abbrev Str := List Char

/-- Coerce a Lean string literal into the `Str` model. -/
def tl (s : String) : Str := s.toList

/-- The character class of the Python regex `\s` and of `str.strip()`
for ASCII text: space, tab, newline, carriage return, form feed and
vertical tab. -/
def pyIsSpace (c : Char) : Bool :=
  c = ' ' || c = '\t' || c = '\n' || c = '\x0d' || c = '\x0c' || c = '\x0b'

/-- Python `str.strip()`: remove leading and trailing whitespace. -/
def pyStrip (s : Str) : Str :=
  ((s.dropWhile pyIsSpace).reverse.dropWhile pyIsSpace).reverse

/-- Python `str.strip(chars)`: remove leading and trailing characters
drawn from the given set. -/
def pyStripSet (chars : Str) (s : Str) : Str :=
  ((s.dropWhile (chars.contains ·)).reverse.dropWhile (chars.contains ·)).reverse

/-- Python `str.split(sep)` for a one-character separator: split on
every occurrence, keeping empty pieces. -/
def pySplitChar (sep : Char) : Str → List Str
  | [] => [[]]
  | c :: rest =>
    if c = sep then [] :: pySplitChar sep rest
    else
      match pySplitChar sep rest with
      | [] => [[c]]
      | piece :: pieces => (c :: piece) :: pieces

/-- Python `"\n".join(lines)` for a one-character separator. -/
def pyJoinChar (sep : Char) : List Str → Str
  | [] => []
  | [l] => l
  | l :: rest => l ++ sep :: pyJoinChar sep rest

/-- Python `str.lower()` restricted to ASCII letters. -/
def pyLower (s : Str) : Str := s.map Char.toLower

/-! ## MD5 (`hashlib.md5`) and `LLMAgent._hash_content`

`_hash_content` is `hashlib.md5(content.encode("utf-8")).hexdigest()[:8]`.
The MD5 compression function is implemented over `Nat` with explicit
32-bit masking. -/

/-- UTF-8 encoding of a single code point. -/
def utf8Char (c : Char) : List Nat :=
  let n := c.toNat
  if n < 0x80 then [n]
  else if n < 0x800 then
    [0xc0 ||| (n >>> 6), 0x80 ||| (n &&& 0x3f)]
  else if n < 0x10000 then
    [0xe0 ||| (n >>> 12), 0x80 ||| ((n >>> 6) &&& 0x3f), 0x80 ||| (n &&& 0x3f)]
  else
    [0xf0 ||| (n >>> 18), 0x80 ||| ((n >>> 12) &&& 0x3f),
     0x80 ||| ((n >>> 6) &&& 0x3f), 0x80 ||| (n &&& 0x3f)]

/-- UTF-8 encoding of a string (Python `str.encode("utf-8")`). -/
def utf8Bytes (s : Str) : List Nat := s.flatMap utf8Char

/-- Truncate to 32 bits. -/
def mask32 (x : Nat) : Nat := x &&& 0xffffffff

/-- Bitwise complement on 32 bits. -/
def not32 (x : Nat) : Nat := 0xffffffff ^^^ x

/-- Rotate a 32-bit word left by `s` bits. -/
def rotl32 (x s : Nat) : Nat := mask32 ((x <<< s) ||| (x >>> (32 - s)))

/-- The 64 MD5 sine-derived round constants. -/
def md5K : List Nat :=
  [0xd76aa478, 0xe8c7b756, 0x242070db, 0xc1bdceee,
   0xf57c0faf, 0x4787c62a, 0xa8304613, 0xfd469501,
   0x698098d8, 0x8b44f7af, 0xffff5bb1, 0x895cd7be,
   0x6b901122, 0xfd987193, 0xa679438e, 0x49b40821,
   0xf61e2562, 0xc040b340, 0x265e5a51, 0xe9b6c7aa,
   0xd62f105d, 0x02441453, 0xd8a1e681, 0xe7d3fbc8,
   0x21e1cde6, 0xc33707d6, 0xf4d50d87, 0x455a14ed,
   0xa9e3e905, 0xfcefa3f8, 0x676f02d9, 0x8d2a4c8a,
   0xfffa3942, 0x8771f681, 0x6d9d6122, 0xfde5380c,
   0xa4beea44, 0x4bdecfa9, 0xf6bb4b60, 0xbebfbc70,
   0x289b7ec6, 0xeaa127fa, 0xd4ef3085, 0x04881d05,
   0xd9d4d039, 0xe6db99e5, 0x1fa27cf8, 0xc4ac5665,
   0xf4292244, 0x432aff97, 0xab9423a7, 0xfc93a039,
   0x655b59c3, 0x8f0ccc92, 0xffeff47d, 0x85845dd1,
   0x6fa87e4f, 0xfe2ce6e0, 0xa3014314, 0x4e0811a1,
   0xf7537e82, 0xbd3af235, 0x2ad7d2bb, 0xeb86d391]

/-- The 64 MD5 per-round left-rotation amounts. -/
def md5S : List Nat :=
  [7, 12, 17, 22, 7, 12, 17, 22, 7, 12, 17, 22, 7, 12, 17, 22,
   5, 9, 14, 20, 5, 9, 14, 20, 5, 9, 14, 20, 5, 9, 14, 20,
   4, 11, 16, 23, 4, 11, 16, 23, 4, 11, 16, 23, 4, 11, 16, 23,
   6, 10, 15, 21, 6, 10, 15, 21, 6, 10, 15, 21, 6, 10, 15, 21]

/-- Little-endian byte decomposition of a number, `k` bytes wide. -/
def leBytes : Nat → Nat → List Nat
  | 0, _ => []
  | k + 1, x => (x &&& 0xff) :: leBytes k (x >>> 8)

/-- MD5 padding: append `0x80`, zero bytes to 56 mod 64, then the
original bit length as a 64-bit little-endian quantity. -/
def md5Pad (msg : List Nat) : List Nat :=
  let len := msg.length
  let zeros := (119 - (len % 64)) % 64
  msg ++ [0x80] ++ List.replicate zeros 0 ++ leBytes 8 ((len * 8) &&& 0xffffffffffffffff)

/-- Split a byte list into chunks of 64 bytes.  The first argument is
fuel bounding the recursion depth (one unit per chunk suffices). -/
def chunks64Aux : Nat → List Nat → List (List Nat)
  | 0, _ => []
  | _ + 1, [] => []
  | fuel + 1, l => l.take 64 :: chunks64Aux fuel (l.drop 64)

/-- Split a byte list into chunks of 64 bytes. -/
def chunks64 (l : List Nat) : List (List Nat) := chunks64Aux l.length l

/-- Assemble the sixteen 32-bit little-endian message words of a chunk. -/
def md5Words (chunk : List Nat) : List Nat :=
  (List.range 16).map fun j =>
    chunk.getD (4 * j) 0 + chunk.getD (4 * j + 1) 0 * 0x100 +
    chunk.getD (4 * j + 2) 0 * 0x10000 + chunk.getD (4 * j + 3) 0 * 0x1000000

/-- One MD5 round: state `(A, B, C, D)`, round index `i`, message words `m`. -/
def md5Round (m : List Nat) (st : Nat × Nat × Nat × Nat) (i : Nat) : Nat × Nat × Nat × Nat :=
  let a := st.1
  let b := st.2.1
  let c := st.2.2.1
  let d := st.2.2.2
  let f :=
    if i < 16 then (b &&& c) ||| (not32 b &&& d)
    else if i < 32 then (d &&& b) ||| (not32 d &&& c)
    else if i < 48 then b ^^^ c ^^^ d
    else c ^^^ (b ||| not32 d)
  let g :=
    if i < 16 then i
    else if i < 32 then (5 * i + 1) % 16
    else if i < 48 then (3 * i + 5) % 16
    else (7 * i) % 16
  let fv := mask32 (f + a + md5K.getD i 0 + m.getD g 0)
  (d, mask32 (b + rotl32 fv (md5S.getD i 0)), b, c)

/-- Process one 64-byte chunk, updating the four-word state. -/
def md5Chunk (st : Nat × Nat × Nat × Nat) (chunk : List Nat) : Nat × Nat × Nat × Nat :=
  let m := md5Words chunk
  let r := (List.range 64).foldl (md5Round m) st
  (mask32 (st.1 + r.1), mask32 (st.2.1 + r.2.1),
   mask32 (st.2.2.1 + r.2.2.1), mask32 (st.2.2.2 + r.2.2.2))

/-- MD5 digest of a byte sequence, as 16 bytes. -/
def md5Digest (msg : List Nat) : List Nat :=
  let st := (chunks64 (md5Pad msg)).foldl md5Chunk
    (0x67452301, 0xefcdab89, 0x98badcfe, 0x10325476)
  leBytes 4 st.1 ++ leBytes 4 st.2.1 ++ leBytes 4 st.2.2.1 ++ leBytes 4 st.2.2.2

/-- The sixteen lowercase hexadecimal digit characters. -/
def hexTable : Str := tl "0123456789abcdef"

/-- One lowercase hexadecimal digit. -/
def hexChar (n : Nat) : Char := hexTable.getD n '0'

/-- Lowercase hexadecimal rendering of a byte sequence (`hexdigest`). -/
def hexOfBytes (bs : List Nat) : Str :=
  bs.flatMap fun b => [hexChar (b / 16 % 16), hexChar (b % 16)]

/-- `LLMAgent._hash_content` from `codedriver/agent.py`:
`hashlib.md5(content.encode("utf-8")).hexdigest()[:8]`. -/
def hashContent (content : Str) : Str :=
  (hexOfBytes (md5Digest (utf8Bytes content))).take 8

/-- The character class of the regex `[a-f0-9]`. -/
def isHexLower (c : Char) : Bool := hexTable.contains c

/-! ## `LLMAgent._parse_file_changes`

The source scans the response text with `re.finditer` over the pattern

  `esc(S) \s*FILE\s+(MODIFY|CREATE|DELETE)\s+([^\s]+)\s+([a-f0-9]{8})\s*\n(.*?)\n\s* esc(E) \s*FILE`

(DOTALL), where `S`/`E` are the session delimiters.  The model below is
a direct translation of that pattern into a deterministic scanner:

* a match must begin at an occurrence of the literal `S`;
* `\s*`/`\s+` followed by a token starting with a non-space character
  match exactly the maximal whitespace run (greedy, no residual
  backtracking is possible at such a boundary);
* `\s*\n` after the hash group is greedy with backtracking: the
  candidate body starts are the positions after each `\n` inside the
  maximal whitespace run, tried from the last such `\n` backwards;
* the lazy group `(.*?)\n\s*` + `esc(E)` + `\s*FILE` selects the
  shortest body whose following `\n` is followed (after a whitespace
  run) by the literal `E` and then (after a whitespace run) by `FILE`;
* `re.finditer` yields non-overlapping matches, resuming at a match
  end, and advances one character after a failed start position.
-/

/-- One raw regex match: the four capture groups of the file pattern. -/
structure RawMatch where
  rawOp : Str
  rawPath : Str
  rawHash : Str
  rawBody : Str
deriving DecidableEq, Repr

/-- Drop a maximal whitespace run (regex `\s*`). -/
def dropSp (l : Str) : Str := l.dropWhile pyIsSpace

/-- Match a literal token and return the rest (regex `esc(lit)`). -/
def expectLit (lit l : Str) : Option Str :=
  if lit.isPrefixOf l then some (l.drop lit.length) else none

/-- Require at least one whitespace character, then drop the maximal
whitespace run (regex `\s+` followed by a non-space token). -/
def reqSpaces : Str → Option Str
  | [] => none
  | c :: rest => if pyIsSpace c then some (rest.dropWhile pyIsSpace) else none

/-- The ordered alternation `(MODIFY|CREATE|DELETE)`. -/
def pickOp (l : Str) : Option (Str × Str) :=
  if (tl "MODIFY").isPrefixOf l then some (tl "MODIFY", l.drop 6)
  else if (tl "CREATE").isPrefixOf l then some (tl "CREATE", l.drop 6)
  else if (tl "DELETE").isPrefixOf l then some (tl "DELETE", l.drop 6)
  else none

/-- After a candidate body-ending `\n`: match `\s*` + `esc(E)` +
`\s*FILE` and return the text after the final `FILE`. -/
def tailAfterBody (E rest : Str) : Option Str :=
  match expectLit E (dropSp rest) with
  | none => none
  | some r1 => expectLit (tl "FILE") (dropSp r1)

/-- The lazy group `(.*?)` + `\n\s*` + `esc(E)` + `\s*FILE`: find the
shortest body, returning it and the text after the match end. -/
def findBody (E : Str) : Str → Option (Str × Str)
  | [] => none
  | c :: rest =>
    match (if c = '\n' then tailAfterBody E rest else none) with
    | some rem => some ([], rem)
    | none => (findBody E rest).map fun br => (c :: br.1, br.2)

/-- Indices of `\n` inside a whitespace run, in decreasing order:
the backtracking order of `\s*\n` (greedy `\s*` first). -/
def newlinePosDesc (l : Str) : List Nat :=
  (((l.enum).filter fun p => p.2 = '\n').map Prod.fst).reverse

/-- Match `\s*\n(.*?)\n\s*` + `esc(E)` + `\s*FILE` at the text right
after the hash group. -/
def matchBodyPart (E r8 : Str) : Option (Str × Str) :=
  let run := r8.takeWhile pyIsSpace
  (newlinePosDesc run).findSome? fun i => findBody E (r8.drop (i + 1))

/-- Match everything after the start delimiter:
`\s*FILE\s+(MODIFY|CREATE|DELETE)\s+([^\s]+)\s+([a-f0-9]{8})` followed
by the body part.  Returns the raw match and the text after its end. -/
def matchAfterStart (E r0 : Str) : Option (RawMatch × Str) :=
  match expectLit (tl "FILE") (dropSp r0) with
  | none => none
  | some r1 =>
  match reqSpaces r1 with
  | none => none
  | some r2 =>
  match pickOp r2 with
  | none => none
  | some (op, r3) =>
  match reqSpaces r3 with
  | none => none
  | some r4 =>
  let path := r4.takeWhile fun c => !pyIsSpace c
  if path = [] then none
  else
  match reqSpaces (r4.drop path.length) with
  | none => none
  | some r6 =>
  let hsh := r6.take 8
  if hsh.length = 8 && hsh.all isHexLower then
    match matchBodyPart E (r6.drop 8) with
    | none => none
    | some (body, rem) => some (⟨op, path, hsh, body⟩, rem)
  else none

/-- The `re.finditer` loop: scan left to right; a match must start at
an occurrence of `S`; resume after a match end, or one character
further after a failed position.  The fuel argument bounds the number
of scan steps (each step strictly shortens the text, so
`text.length + 1` suffices). -/
def scanMatches (S E : Str) : Nat → Str → List RawMatch
  | 0, _ => []
  | _ + 1, [] => []
  | fuel + 1, text@(_ :: rest) =>
    match (if S.isPrefixOf text then matchAfterStart E (text.drop S.length) else none) with
    | some (m, rem) => m :: scanMatches S E fuel rem
    | none => scanMatches S E fuel rest

/-- All raw matches of the file pattern in a response text. -/
def reFinditer (S E text : Str) : List RawMatch :=
  scanMatches S E (text.length + 1) text

/-- A parsed change: the dict built by `_parse_file_changes`. -/
structure FileChange where
  operation : Str
  filepath : Str
  hash : Str
  content : Str
deriving DecidableEq, Repr

/-- The dict construction in `_parse_file_changes`:
`operation = group(1).lower()`, `filepath = group(2).strip()`,
`hash = group(3)`, `content = group(4).strip()`. -/
def toFileChange (m : RawMatch) : FileChange :=
  ⟨pyLower m.rawOp, pyStrip m.rawPath, m.rawHash, pyStrip m.rawBody⟩

/-- `LLMAgent._parse_file_changes`. -/
def parseFileChanges (S E text : Str) : List FileChange :=
  (reFinditer S E text).map toFileChange

/-! ## The verification and staging loop of `LLMAgent.process_changes`

For each parsed change the loop (agent.py lines 302-328):
takes `content` to be the parsed content, or `""` for DELETE;
if `content` is non-empty and `_hash_content(content)` differs from the
declared hash, prints a warning naming the path and skips the change;
a DELETE is recorded in `modified_files` iff its target exists in the
working tree; otherwise, if `content` is non-empty, the content is
written below the preview directory and the change is recorded.

The loop output is modelled as the ordered lists of preview writes,
`modified_files` entries `(filepath, operation)` and warning paths.
The working tree is modelled by the list of its existing paths. -/

/-- Output of the `process_changes` loop. -/
structure ProcOut where
  writes : List (Str × Str)
  modified : List (Str × Str)
  warnings : List Str
deriving DecidableEq, Repr

/-- Concatenation of loop outputs. -/
def ProcOut.app (a b : ProcOut) : ProcOut :=
  ⟨a.writes ++ b.writes, a.modified ++ b.modified, a.warnings ++ b.warnings⟩

/-- The body of the `for change in changes` loop for one change. -/
def stepChange (wt : List Str) (c : FileChange) : ProcOut :=
  let content := if c.operation = tl "delete" then [] else c.content
  if content ≠ [] ∧ hashContent content ≠ c.hash then ⟨[], [], [c.filepath]⟩
  else if c.operation = tl "delete" then
    if c.filepath ∈ wt then ⟨[], [(c.filepath, c.operation)], []⟩ else ⟨[], [], []⟩
  else if content ≠ [] then ⟨[(c.filepath, content)], [(c.filepath, c.operation)], []⟩
  else ⟨[], [], []⟩

/-- The whole loop over a parsed change list. -/
def processLoop (wt : List Str) : List FileChange → ProcOut
  | [] => ⟨[], [], []⟩
  | c :: rest => ProcOut.app (stepChange wt c) (processLoop wt rest)

/-- Parsing followed by the verification and staging loop. -/
def processChangesModel (S E : Str) (wt : List Str) (text : Str) : ProcOut :=
  processLoop wt (parseFileChanges S E text)

/-- A fixed pair of session delimiters of the shape produced by
`_generate_delimiter` (used to instantiate theorems). -/
def S0 : Str := tl "@==CODEDRIVER==Ab1Cd2Ef==@"

/-- The matching end delimiter instance. -/
def E0 : Str := tl "@==CODEDRIVER==Gh3Ij4Kl==@"

/-! ## `testing.py`: backup, patch generation and apply

`apply_changes_to_working(preview_dir, modified_files, backup_first)`:
1. if `backup_first`, `_create_backup()` copies the working directory
   (ignoring `.git` entries at every level, via `_ignore_patterns`)
   into a fresh backup directory and returns its path, or `""` on any
   exception; an empty result aborts the apply with `False`;
2. if `modified_files` is empty, return `True`;
3. `_generate_patch_file` walks `modified_files` in order: a missing
   working file is first created empty (`Path.touch()` — a
   working-tree write); `diff -u working preview` contributes a patch
   section when the files differ, and any diff error (such as a
   missing preview file, exit code 2) makes the whole generation
   return `""`; an empty patch also yields `""`;
4. an empty patch path makes the apply return `True` with no patch run;
5. otherwise the external `patch` tool runs; the apply returns `False`
   iff the tool wrote to stderr AND exited nonzero.

The working tree is an association list from component paths to
contents.  The external `patch` tool is modelled as applying each
generated section verbatim on success and leaving the tree unchanged
on failure; the theorems below depend only on the event order, the
returned boolean and the no-patch paths, not on that choice. -/

/-- A component path, e.g. `["src", "main.py"]`. -/
abbrev PathC := List Str

/-- A working tree: ordered association list of files. -/
abbrev TreeC := List (PathC × Str)

/-- First-match lookup (`os.path.exists` / file read). -/
def treeGet : TreeC → PathC → Option Str
  | [], _ => none
  | e :: t, p => if e.1 = p then some e.2 else treeGet t p

/-- Overwrite the content of an existing file. -/
def treeUpdate (t : TreeC) (p : PathC) (v : Str) : TreeC :=
  t.map fun e => if e.1 = p then (e.1, v) else e

/-- `_ignore_patterns` applied along a recursive copy: the copy in
`_create_backup` keeps exactly the files with no `.git` path
component. -/
def gitFilter (t : TreeC) : TreeC :=
  t.filter fun e => !(e.1.contains (tl ".git"))

/-- Observable working-tree events of an apply run, in order. -/
inductive AEvent where
  | backupCreated (snap : TreeC)
  | touchWorking (p : PathC)
  | patchRun
deriving DecidableEq, Repr

/-- Working-tree writes (backup creation is a read of the tree). -/
def AEvent.isWrite : AEvent → Bool
  | .backupCreated _ => false
  | .touchWorking _ => true
  | .patchRun => true

/-- A patch section for one file: `(path, working text, preview text)`. -/
abbrev Section := PathC × Str × Str

/-- Exit status and captured output of the external `patch` run. -/
structure PatchResult where
  returncode : Nat
  stdout : Str
  stderr : Str
deriving DecidableEq, Repr

/-- `_generate_patch_file`: walk the modified files in order.  Returns
`(patch sections or none on a diff error, tree after touches, events)`.
`none` models the `return ''` taken when `diff` reports an error
(for instance when the preview file does not exist). -/
def genPatch (preview : TreeC) : TreeC → List PathC → Option (List Section) × TreeC × List AEvent
  | work, [] => (some [], work, [])
  | work, f :: rest =>
    let missing := treeGet work f = none
    let work1 := if missing then work ++ [(f, [])] else work
    let evs1 : List AEvent := if missing then [.touchWorking f] else []
    match treeGet preview f with
    | none => (none, work1, evs1)
    | some pc =>
      let wc := (treeGet work1 f).getD []
      let sec : List Section := if wc ≠ pc then [(f, wc, pc)] else []
      let r := genPatch preview work1 rest
      (r.1.map fun secs => sec ++ secs, r.2.1, evs1 ++ r.2.2)

/-- Clean application of the generated patch sections. -/
def applySections (secs : List Section) (t : TreeC) : TreeC :=
  secs.foldl (fun acc s => treeUpdate acc s.1 s.2.2) t

/-- Result of `apply_changes_to_working`: returned boolean, event
trace, final working tree. -/
structure ApplyOut where
  result : Bool
  events : List AEvent
  finalTree : TreeC
deriving DecidableEq, Repr

/-- `apply_changes_to_working`.  `backupOk` is the environment oracle
for whether the backup copy raises an exception inside
`_create_backup` (which then returns `""`). -/
def applyChangesToWorking (backupOk : Bool) (patchRes : PatchResult)
    (preview work : TreeC) (modifiedFiles : List PathC) (backupFirst : Bool) : ApplyOut :=
  if backupFirst ∧ ¬backupOk then ⟨false, [], work⟩
  else
    let evs0 : List AEvent := if backupFirst then [.backupCreated (gitFilter work)] else []
    if modifiedFiles = [] then ⟨true, evs0, work⟩
    else
      match genPatch preview work modifiedFiles with
      | (none, w1, evs1) => ⟨true, evs0 ++ evs1, w1⟩
      | (some [], w1, evs1) => ⟨true, evs0 ++ evs1, w1⟩
      | (some secs, w1, evs1) =>
        let failed := patchRes.stderr ≠ [] ∧ patchRes.returncode ≠ 0
        ⟨if failed then false else true,
         evs0 ++ evs1 ++ [.patchRun],
         if failed then w1 else applySections secs w1⟩

/-! ## `_setup_preview_dir`, `_ignore_patterns` and `_process_changes`

`_setup_preview_dir` uses the fixed path `tempdir/codedriver_preview`:
it removes that directory if it already exists (`shutil.rmtree`),
recreates it, and copies the working directory into it, skipping
top-level `.git` and — through `shutil.copytree(ignore=_ignore_patterns)`
— any entry named `.git` at every level below.  `_ignore_patterns`
ignores exactly the names equal to `".git"`.

The directory structure matters here, so working trees are modelled as
a mutual inductive forest of named files and directories. -/

mutual
/-- A named file or directory. -/
inductive FsEntry where
  | file (name : Str) (content : Str) : FsEntry
  | dir (name : Str) (children : FsForest) : FsEntry
deriving DecidableEq, Repr

/-- An ordered list of directory entries. -/
inductive FsForest where
  | nil : FsForest
  | cons (e : FsEntry) (rest : FsForest) : FsForest
deriving DecidableEq, Repr
end

/-- The name of an entry. -/
def FsEntry.name : FsEntry → Str
  | .file n _ => n
  | .dir n _ => n

/-- The recursive copy performed by `_setup_preview_dir`: the top-level
loop skips the entry named `.git`, and `_copy`/`shutil.copytree` with
`ignore=_ignore_patterns` drops entries named `.git` at every level
below; everything else is copied byte-identically. -/
def copyForest : FsForest → FsForest
  | .nil => .nil
  | .cons (.file n c) rest =>
    if n = tl ".git" then copyForest rest else .cons (.file n c) (copyForest rest)
  | .cons (.dir n f) rest =>
    if n = tl ".git" then copyForest rest else .cons (.dir n (copyForest f)) (copyForest rest)

/-- Flatten a forest into `(component path, content)` pairs. -/
def flattenForest : FsForest → List (List Str × Str)
  | .nil => []
  | .cons (.file n c) rest => ([n], c) :: flattenForest rest
  | .cons (.dir n f) rest =>
    ((flattenForest f).map fun pc => (n :: pc.1, pc.2)) ++ flattenForest rest

/-- The temporary directory, as named directory trees. -/
abbrev TmpState := List (Str × FsForest)

/-- Look a directory up in the temporary directory. -/
def tmpLookup (t : TmpState) (n : Str) : Option FsForest :=
  (t.find? fun e => e.1 = n).map Prod.snd

/-- `_setup_preview_dir` including its temporary-directory management:
the preview always lives at the fixed name `codedriver_preview`; an
existing directory at that name is first deleted (`shutil.rmtree`),
then the fresh copy of the working tree is created there.  Returns the
new temporary-directory state and the preview path. -/
def setupPreviewRun (tmp : TmpState) (work : FsForest) : TmpState × Str :=
  let name := tl "codedriver_preview"
  let tmp1 := if tmp.any fun e => e.1 = name then tmp.filter fun e => e.1 ≠ name else tmp
  ((name, copyForest work) :: tmp1, name)

/-- Replace the first entry carrying the given name, or append. -/
def forestSetEntry : FsForest → FsEntry → FsForest
  | .nil, e => .cons e .nil
  | .cons x rest, e =>
    if x.name = e.name then .cons e rest else .cons x (forestSetEntry rest e)

/-- Children of the first directory with the given name (a file of
that name is replaced by a directory on write, matching
`os.makedirs` + `open(..., "w")` semantics on a fresh preview). -/
def forestChildren : FsForest → Str → FsForest
  | .nil, _ => .nil
  | .cons (.dir m ch) rest, n => if m = n then ch else forestChildren rest n
  | .cons (.file m _) rest, n => if m = n then .nil else forestChildren rest n

/-- Write a file at a component path, creating parent directories
(`os.makedirs(..., exist_ok=True)` followed by `open(..., "w")`). -/
def forestWrite : FsForest → List Str → Str → FsForest
  | f, [], _ => f
  | f, [n], c => forestSetEntry f (.file n c)
  | f, n :: ns, c => forestSetEntry f (.dir n (forestWrite (forestChildren f n) ns c))

/-- Python `path.split("/")`. -/
def splitSlash (p : Str) : List Str := pySplitChar '/' p

/-- `line.startswith("### [") and line.endswith("]")`. -/
def isHeaderLine (line : Str) : Bool :=
  (tl "### [").isPrefixOf line && (tl "]").isSuffixOf line

/-- `line[5:-1]`: the path inside a `### [path]` header. -/
def headerPath (line : Str) : Str := (line.drop 5).dropLast

/-- The text after the first occurrence of a character
(`s.split(sep, 1)[1]` when the separator occurs). -/
def afterChar (sep : Char) : Str → Str
  | [] => []
  | c :: r => if c = sep then r else afterChar sep r

/-- Test commands extracted from the lines of one flushed file:
lines starting with `"""TEST CMD:`, taking the text after the first
colon, stripped of whitespace and of quote characters. -/
def collectCmds (lines : List Str) : List Str :=
  (lines.filter fun l => (tl "\"\"\"TEST CMD:").isPrefixOf l).map fun l =>
    pyStripSet (tl "\"") (pyStrip (afterChar ':' l))

/-- Flush the accumulated lines of the current file, as
`_process_changes` does when it meets a header or the end of input.
Python truthiness: a `None` or empty current file name writes
nothing. -/
def flushFile (curr : Option Str) (accLines : List Str) : List (Str × Str) × List Str :=
  match curr with
  | some p =>
    if p ≠ [] then ([(p, pyJoinChar '\n' accLines)], collectCmds accLines) else ([], [])
  | none => ([], [])

/-- The line loop of `_process_changes` over the remaining lines. -/
def simpleLoop (curr : Option Str) (acc : List Str) : List Str → List (Str × Str) × List Str
  | [] => flushFile curr acc
  | line :: rest =>
    if isHeaderLine line then
      let fl := flushFile curr acc
      let r := simpleLoop (some (headerPath line)) [] rest
      (fl.1 ++ r.1, fl.2 ++ r.2)
    else simpleLoop curr (acc ++ [line]) rest

/-- `_process_changes`: parse the `### [path]` format out of
`content.strip().split("\n")`, returning the written files (in order,
with their joined content) and the collected test commands. -/
def processChangesSimple (content : Str) : List (Str × Str) × List Str :=
  simpleLoop none [] (pySplitChar '\n' (pyStrip content))

/-- `apply_changes_to_preview` restricted to its directory effect:
the fresh preview copy of the working tree with every parsed file of
the simple format written on top. -/
def stagePreview (content : Str) (work : FsForest) : FsForest :=
  (processChangesSimple content).1.foldl
    (fun acc pc => forestWrite acc (splitSlash pc.1) pc.2) (copyForest work)

/-- Modelled from the spec (section 4.3): the spec describes the
preview workspace as the working tree minus version-control metadata
directories and minus the paths matching the ignore rules supplied by
the FileCatalog collaborator.  The code under `src/` supplies no such
rules to the copy, so this definition exists only as the comparison
target of the staging claim. -/
def specPreviewExpected (w : List (List Str × Str))
    (isVcMeta : Str → Bool) (ruleMatch : List Str → Bool) : List (List Str × Str) :=
  w.filter fun pc => !(pc.1.any isVcMeta) && !(ruleMatch pc.1)


/-! ## Lemmas about the verification and staging loop -/

/-- What one loop step records in `modified_files`. -/
theorem stepChange_modified_eq (wt : List Str) (c : FileChange) :
    (stepChange wt c).modified =
      if c.operation = tl "delete" then
        (if c.filepath ∈ wt then [(c.filepath, c.operation)] else [])
      else if c.content ≠ [] ∧ hashContent c.content = c.hash then
        [(c.filepath, c.operation)]
      else [] := by
  simp only [stepChange]
  split_ifs <;> simp_all

/-- What one loop step writes below the preview directory. -/
theorem stepChange_writes_eq (wt : List Str) (c : FileChange) :
    (stepChange wt c).writes =
      if c.operation ≠ tl "delete" ∧ c.content ≠ [] ∧ hashContent c.content = c.hash then
        [(c.filepath, c.content)]
      else [] := by
  simp only [stepChange]
  split_ifs <;> simp_all

/-- Which warnings one loop step prints. -/
theorem stepChange_warnings_eq (wt : List Str) (c : FileChange) :
    (stepChange wt c).warnings =
      if c.operation ≠ tl "delete" ∧ c.content ≠ [] ∧ hashContent c.content ≠ c.hash then
        [c.filepath]
      else [] := by
  simp only [stepChange]
  split_ifs <;> simp_all

/-- The loop output over a concatenation is the concatenation of the
outputs: each iteration of the `for change in changes` loop appends to
its three accumulators independently of the other iterations. -/
theorem processLoop_append (wt : List Str) (l₁ l₂ : List FileChange) :
    processLoop wt (l₁ ++ l₂) = ProcOut.app (processLoop wt l₁) (processLoop wt l₂) := by
  induction l₁ with
  | nil =>
    have : processLoop wt l₂ = ProcOut.app ⟨[], [], []⟩ (processLoop wt l₂) := by
      cases h : processLoop wt l₂ <;> simp [ProcOut.app]
    simpa [processLoop] using this
  | cons c rest ih =>
    cases hs : stepChange wt c <;>
    cases h1 : processLoop wt rest <;>
    cases h2 : processLoop wt l₂ <;>
    simp_all [processLoop, ProcOut.app]

/-- Any DELETE pair recorded by the loop had an existing target. -/
theorem processLoop_delete_mem (wt : List Str) (cs : List FileChange) (p : Str)
    (h : (p, tl "delete") ∈ (processLoop wt cs).modified) : p ∈ wt := by
  induction cs with
  | nil => simp [processLoop] at h
  | cons x rest ih =>
    simp only [processLoop, ProcOut.app] at h
    rcases List.mem_append.mp h with h1 | h1
    · rw [stepChange_modified_eq] at h1
      split_ifs at h1 with hd hw hv
      · simp at h1
        rcases h1 with ⟨rfl, -⟩
        exact hw
      · simp at h1
      · simp at h1
        rcases h1 with ⟨rfl, hop⟩
        exact absurd hop.symm hd
      · simp at h1
    · exact ih h1

/-- A DELETE change in the list with an existing target is recorded. -/
theorem processLoop_delete_mem_of (wt : List Str) (cs : List FileChange) (c : FileChange)
    (hmem : c ∈ cs) (hop : c.operation = tl "delete") (hin : c.filepath ∈ wt) :
    (c.filepath, c.operation) ∈ (processLoop wt cs).modified := by
  induction cs with
  | nil => exact absurd hmem (List.not_mem_nil c)
  | cons x rest ih =>
    simp only [processLoop, ProcOut.app, List.mem_append]
    rcases List.mem_cons.mp hmem with rfl | hmem2
    · left
      rw [stepChange_modified_eq, if_pos hop, if_pos hin]
      exact List.mem_singleton_self _
    · right
      exact ih hmem2

/-- C8: a DELETE entry appears in `modified_files` iff its target
currently exists in the working tree. -/
theorem claim8_delete_iff_exists (wt : List Str) (cs : List FileChange) (c : FileChange)
    (hmem : c ∈ cs) (hop : c.operation = tl "delete") :
    (c.filepath, c.operation) ∈ (processLoop wt cs).modified ↔ c.filepath ∈ wt := by
  constructor
  · intro h
    rw [hop] at h
    exact processLoop_delete_mem wt cs _ h
  · exact processLoop_delete_mem_of wt cs c hmem hop

theorem claim8_witness :
    (tl "c.py", tl "delete") ∈
      (processLoop [tl "c.py"] [⟨tl "delete", tl "c.py", tl "deadbeef", []⟩]).modified ∧
    ¬ (tl "d.py", tl "delete") ∈
      (processLoop [tl "c.py"] [⟨tl "delete", tl "c.py", tl "deadbeef", []⟩,
        ⟨tl "delete", tl "d.py", tl "deadbeef", []⟩]).modified := by
  constructor
  · exact (claim8_delete_iff_exists [tl "c.py"] [⟨tl "delete", tl "c.py", tl "deadbeef", []⟩]
      ⟨tl "delete", tl "c.py", tl "deadbeef", []⟩ (by decide) (by decide)).mpr (by decide)
  · intro h
    exact absurd ((claim8_delete_iff_exists [tl "c.py"]
      [⟨tl "delete", tl "c.py", tl "deadbeef", []⟩, ⟨tl "delete", tl "d.py", tl "deadbeef", []⟩]
      ⟨tl "delete", tl "d.py", tl "deadbeef", []⟩ (by decide) (by decide)).mp h) (by decide)

/-- C9: a CREATE or MODIFY change whose stripped body is empty
contributes nothing at all to the run: no hash-mismatch warning (the
verification is skipped), no preview write and no
`modified_files` entry — processing is as if the block were absent. -/
theorem claim9_empty_body_skipped (wt : List Str) (l₁ l₂ : List FileChange) (c : FileChange)
    (hop : c.operation = tl "create" ∨ c.operation = tl "modify") (hc : c.content = []) :
    stepChange wt c = ⟨[], [], []⟩ ∧
      processLoop wt (l₁ ++ c :: l₂) = processLoop wt (l₁ ++ l₂) := by
  have hnd : ¬ c.operation = tl "delete" := by
    rcases hop with h | h <;> rw [h] <;> decide
  have hstep : stepChange wt c = ⟨[], [], []⟩ := by
    simp [stepChange, hnd, hc]
  refine ⟨hstep, ?_⟩
  have h2 : l₁ ++ c :: l₂ = (l₁ ++ [c]) ++ l₂ := by simp
  rw [h2, processLoop_append, processLoop_append, processLoop_append]
  simp [processLoop, hstep, ProcOut.app]

theorem claim9_witness :
    processLoop [] [⟨tl "modify", tl "b.py", tl "00000000", []⟩] = ⟨[], [], []⟩ := by
  have h := claim9_empty_body_skipped [] [] [] ⟨tl "modify", tl "b.py", tl "00000000", []⟩
    (Or.inr rfl) rfl
  simpa [processLoop] using h.2

/-! ## Stripping lemmas and the hash-verification claims -/

/-- The head surviving `dropWhile p` does not satisfy `p`. -/
theorem dropWhile_head?_not (p : Char → Bool) :
    ∀ (l : Str) (c : Char), (l.dropWhile p).head? = some c → p c = false := by
  intro l
  induction l with
  | nil => intro c h; simp at h
  | cons a t ih =>
    intro c h
    by_cases ha : p a
    · rw [List.dropWhile_cons_of_pos ha] at h
      exact ih c h
    · rw [List.dropWhile_cons_of_neg ha] at h
      simp at h
      rw [← h]
      exact Bool.not_eq_true (p a) ▸ ha

/-- `pyStrip` in terms of `List.rdropWhile`. -/
theorem pyStrip_eq_rdrop (s : Str) :
    pyStrip s = List.rdropWhile pyIsSpace (s.dropWhile pyIsSpace) := rfl

/-- The first character of a stripped string is not whitespace. -/
theorem pyStrip_head (s : Str) (c : Char) (h : (pyStrip s).head? = some c) :
    pyIsSpace c = false := by
  rw [pyStrip_eq_rdrop] at h
  obtain ⟨t, ht⟩ := List.rdropWhile_prefix pyIsSpace (s.dropWhile pyIsSpace)
  have hne : List.rdropWhile pyIsSpace (s.dropWhile pyIsSpace) ≠ [] := by
    intro he; rw [he] at h; simp at h
  have : (s.dropWhile pyIsSpace).head? = some c := by
    rw [← ht]
    cases hr : List.rdropWhile pyIsSpace (s.dropWhile pyIsSpace) with
    | nil => exact absurd hr hne
    | cons x xs => rw [hr] at h; simpa using h
  exact dropWhile_head?_not pyIsSpace _ c this

/-- The last character of a stripped string is not whitespace. -/
theorem pyStrip_last (s : Str) (c : Char) (h : (pyStrip s).getLast? = some c) :
    pyIsSpace c = false := by
  unfold pyStrip at h
  rw [List.getLast?_reverse] at h
  exact dropWhile_head?_not pyIsSpace _ c h

/-- C10: for every parsed CREATE/MODIFY block, the parsed content is
the raw captured body stripped of surrounding whitespace, the staged
preview write (when the change survives verification) carries exactly
that stripped text, and the verification hash is computed over that
stripped text. -/
theorem claim10_strip_staging (S E text : Str) (wt : List Str) (m : RawMatch)
    (hm : m ∈ reFinditer S E text) :
    toFileChange m ∈ parseFileChanges S E text ∧
    (toFileChange m).content = pyStrip m.rawBody ∧
    (∀ c0, (pyStrip m.rawBody).head? = some c0 → pyIsSpace c0 = false) ∧
    (∀ c0, (pyStrip m.rawBody).getLast? = some c0 → pyIsSpace c0 = false) ∧
    (stepChange wt (toFileChange m)).writes =
      (if (toFileChange m).operation ≠ tl "delete" ∧ pyStrip m.rawBody ≠ [] ∧
          hashContent (pyStrip m.rawBody) = (toFileChange m).hash
       then [((toFileChange m).filepath, pyStrip m.rawBody)] else []) ∧
    (stepChange wt (toFileChange m)).warnings =
      (if (toFileChange m).operation ≠ tl "delete" ∧ pyStrip m.rawBody ≠ [] ∧
          hashContent (pyStrip m.rawBody) ≠ (toFileChange m).hash
       then [(toFileChange m).filepath] else []) := by
  refine ⟨List.mem_map_of_mem toFileChange hm, rfl, pyStrip_head m.rawBody,
    pyStrip_last m.rawBody, ?_, ?_⟩
  · rw [stepChange_writes_eq]
    rfl
  · rw [stepChange_warnings_eq]
    rfl

theorem claim10_witness :
    toFileChange ⟨tl "CREATE", tl "d.py", tl "9dd4e461", tl "  x "⟩ ∈
      parseFileChanges S0 E0 (S0 ++ tl " FILE CREATE d.py 9dd4e461\n  x \n" ++ E0 ++ tl " FILE") ∧
    (toFileChange ⟨tl "CREATE", tl "d.py", tl "9dd4e461", tl "  x "⟩).content = tl "x" := by
  have h := claim10_strip_staging S0 E0
    (S0 ++ tl " FILE CREATE d.py 9dd4e461\n  x \n" ++ E0 ++ tl " FILE") []
    ⟨tl "CREATE", tl "d.py", tl "9dd4e461", tl "  x "⟩ (by decide)
  exact ⟨h.1, h.2.1.trans (by decide)⟩

/-- C4, counterexample to the claim as stated: a MODIFY block whose
body strips to empty and whose declared hash is wrong for that body
parses, its hash does not verify, yet NO warning naming the path is
printed (the loop only verifies non-empty content). -/
theorem claim4_counterexample :
    parseFileChanges S0 E0 (S0 ++ tl " FILE MODIFY b.py 00000000\n\n" ++ E0 ++ tl " FILE") =
      [⟨tl "modify", tl "b.py", tl "00000000", []⟩] ∧
    hashContent [] ≠ tl "00000000" ∧
    (processChangesModel S0 E0 []
      (S0 ++ tl " FILE MODIFY b.py 00000000\n\n" ++ E0 ++ tl " FILE")).warnings = [] := by
  refine ⟨by decide, by decide, by decide⟩

/-- C4 as amended: a MODIFY/CREATE change whose declared hash does not
match the hash of its (stripped) content never contributes a preview
write or a `modified_files` entry; when the stripped content is
non-empty it is dropped with a warning naming its path, when empty it
is skipped silently; the remaining changes are processed either way. -/
theorem claim4_amended (S E text : Str) (wt : List Str) (l₁ l₂ : List FileChange)
    (c : FileChange) (hparse : parseFileChanges S E text = l₁ ++ c :: l₂)
    (hop : c.operation = tl "modify" ∨ c.operation = tl "create")
    (hmis : hashContent c.content ≠ c.hash) :
    processLoop wt (parseFileChanges S E text) =
      ProcOut.app (processLoop wt l₁)
        (ProcOut.app ⟨[], [], if c.content ≠ [] then [c.filepath] else []⟩
          (processLoop wt l₂)) := by
  rw [hparse]
  have h2 : l₁ ++ c :: l₂ = (l₁ ++ [c]) ++ l₂ := by simp
  rw [h2, processLoop_append, processLoop_append]
  have hnd : ¬ c.operation = tl "delete" := by
    rcases hop with h | h <;> rw [h] <;> decide
  have hstep : stepChange wt c = ⟨[], [], if c.content ≠ [] then [c.filepath] else []⟩ := by
    by_cases hc : c.content = [] <;> simp [stepChange, hnd, hmis, hc]
  simp [processLoop, hstep, ProcOut.app]

theorem claim4_witness :
    (processChangesModel S0 E0 []
      (S0 ++ tl " FILE MODIFY b.py 00000000\nbody\n" ++ E0 ++ tl " FILE")).warnings =
      [tl "b.py"] := by
  have h := claim4_amended S0 E0
    (S0 ++ tl " FILE MODIFY b.py 00000000\nbody\n" ++ E0 ++ tl " FILE") [] [] []
    ⟨tl "modify", tl "b.py", tl "00000000", tl "body"⟩ (by decide) (Or.inl rfl) (by decide)
  have h2 := congrArg ProcOut.warnings h
  simpa [processChangesModel, processLoop, ProcOut.app] using h2

/-! ## Claims about `apply_changes_to_working` -/

/-- Every event emitted by `_generate_patch_file` is a touch of a
missing working file. -/
theorem genPatch_events_touch (preview : TreeC) :
    ∀ (mf : List PathC) (work : TreeC) (e : AEvent),
      e ∈ (genPatch preview work mf).2.2 → ∃ p, e = AEvent.touchWorking p := by
  intro mf
  induction mf with
  | nil => intro work e he; simp [genPatch] at he
  | cons f rest ih =>
    intro work e he
    simp only [genPatch] at he
    by_cases hmiss : treeGet work f = none
    · simp only [hmiss, if_pos, if_true] at he
      cases hp : treeGet preview f with
      | none =>
        rw [hp] at he
        simp at he
        exact ⟨f, by simp [he]⟩
      | some pc =>
        rw [hp] at he
        simp at he
        rcases he with he | he
        · exact ⟨f, by simp [he]⟩
        · exact ih _ e he
    · simp only [hmiss, if_neg, if_false] at he
      cases hp : treeGet preview f with
      | none => rw [hp] at he; simp at he
      | some pc =>
        rw [hp] at he
        simp at he
        exact ih _ e he

/-- With a successful backup, the event trace starts with the backup
event and contains no other backup event. -/
theorem apply_events_backup_head (patchRes : PatchResult) (preview work : TreeC)
    (mf : List PathC) :
    ∃ t, (applyChangesToWorking true patchRes preview work mf true).events =
        AEvent.backupCreated (gitFilter work) :: t ∧
      ∀ snap, AEvent.backupCreated snap ∉ t := by
  simp only [applyChangesToWorking]
  by_cases hmf : mf = []
  · exact ⟨[], by simp [hmf], by simp⟩
  · rcases hgp : genPatch preview work mf with ⟨r, w1, evs1⟩
    have hevs : ∀ snap, AEvent.backupCreated snap ∉ evs1 := by
      intro snap hsnap
      rcases genPatch_events_touch preview mf work (AEvent.backupCreated snap)
        (by rw [hgp]; exact hsnap) with ⟨p, hp⟩
      cases hp
    cases r with
    | none => exact ⟨evs1, by simp [hmf, hgp], hevs⟩
    | some secs =>
      cases secs with
      | nil => exact ⟨evs1, by simp [hmf, hgp], hevs⟩
      | cons s ss =>
        refine ⟨evs1 ++ [AEvent.patchRun], by simp [hmf, hgp], ?_⟩
        intro snap hsnap
        rcases List.mem_append.mp hsnap with h | h
        · exact hevs snap h
        · simp at h

/-- C1: with `backup_first` enabled, a failing backup aborts the whole
apply with no working-tree write and a `False` result; on every other
path, every working-tree write (file touch during patch generation, or
the external patch run) is preceded in the trace by the creation of
the backup snapshot; every snapshot created is the working tree minus
`.git` entries, hence non-empty whenever the tree has a non-`.git`
file. -/
theorem claim1_backup_before_any_write (backupOk : Bool) (patchRes : PatchResult)
    (preview work : TreeC) (mf : List PathC) :
    (backupOk = false →
      (applyChangesToWorking backupOk patchRes preview work mf true).result = false ∧
      (applyChangesToWorking backupOk patchRes preview work mf true).events = [] ∧
      (applyChangesToWorking backupOk patchRes preview work mf true).finalTree = work) ∧
    (∀ pre e post,
      (applyChangesToWorking backupOk patchRes preview work mf true).events = pre ++ e :: post →
      e.isWrite = true → AEvent.backupCreated (gitFilter work) ∈ pre) ∧
    (∀ snap,
      AEvent.backupCreated snap ∈
        (applyChangesToWorking backupOk patchRes preview work mf true).events →
      snap = gitFilter work ∧ (gitFilter work ≠ [] → snap ≠ [])) := by
  cases backupOk with
  | false =>
    have happ : applyChangesToWorking false patchRes preview work mf true =
        ⟨false, [], work⟩ := by
      simp [applyChangesToWorking]
    refine ⟨?_, ?_, ?_⟩
    · intro _
      rw [happ]
      exact ⟨rfl, rfl, rfl⟩
    · intro pre e post hev _
      rw [happ] at hev
      simp at hev
    · intro snap hmem
      rw [happ] at hmem
      simp at hmem
  | true =>
    obtain ⟨t, ht, htno⟩ := apply_events_backup_head patchRes preview work mf
    refine ⟨?_, ?_, ?_⟩
    · intro h
      exact absurd h (by decide)
    · intro pre e post hev hw
      rw [ht] at hev
      cases pre with
      | nil =>
        simp only [List.nil_append] at hev
        injection hev with h1 _
        rw [← h1] at hw
        simp [AEvent.isWrite] at hw
      | cons x xs =>
        rw [List.cons_append] at hev
        injection hev with h1 _
        rw [← h1]
        exact List.mem_cons_self _ _
    · intro snap hmem
      rw [ht] at hmem
      rcases List.mem_cons.mp hmem with h | h
      · injection h with h1
        exact ⟨h1, fun hne => h1 ▸ hne⟩
      · exact absurd h (htno snap)

theorem claim1_witness :
    AEvent.backupCreated (gitFilter [([tl "a.py"], tl "old")]) ∈
      [AEvent.backupCreated (gitFilter [([tl "a.py"], tl "old")])] :=
  (claim1_backup_before_any_write true ⟨0, [], []⟩
    [([tl "a.py"], tl "new")] [([tl "a.py"], tl "old")] [[tl "a.py"]]).2.1
    [AEvent.backupCreated (gitFilter [([tl "a.py"], tl "old")])] AEvent.patchRun []
    (by decide) (by decide)

/-- C2: the code never realizes a DELETE during apply.  With working
tree containing `c.py` and a DELETE selection (the preview holds no
`c.py`), `diff` fails on the missing preview file, `_generate_patch_file`
returns `""`, and the apply reports SUCCESS while `c.py` still exists
in the working tree — the backup snapshot does contain the original
file, but the removal claimed by the spec never happens. -/
theorem claim2_delete_not_applied :
    (applyChangesToWorking true ⟨0, [], []⟩ [] [([tl "c.py"], tl "print(3)")]
      [[tl "c.py"]] true).result = true ∧
    treeGet (applyChangesToWorking true ⟨0, [], []⟩ [] [([tl "c.py"], tl "print(3)")]
      [[tl "c.py"]] true).finalTree [tl "c.py"] = some (tl "print(3)") ∧
    AEvent.backupCreated (gitFilter [([tl "c.py"], tl "print(3)")]) ∈
      (applyChangesToWorking true ⟨0, [], []⟩ [] [([tl "c.py"], tl "print(3)")]
        [[tl "c.py"]] true).events ∧
    treeGet (gitFilter [([tl "c.py"], tl "print(3)")]) [tl "c.py"] = some (tl "print(3)") := by
  refine ⟨by decide, by decide, by decide, by decide⟩

/-- C3, counterexample to the claim as stated: the external patch tool
reports failure (exit code 1) but writes nothing to stderr; the apply
nevertheless returns success. -/
theorem claim3_counterexample :
    (applyChangesToWorking true ⟨1, tl "1 out of 1 hunk FAILED", []⟩
      [([tl "a.py"], tl "new")] [([tl "a.py"], tl "old")] [[tl "a.py"]] true).result = true := by
  decide

/-- C3 as amended: the apply returns failure exactly when the backup
step fails (with `backup_first`) or when the patch tool ran, exited
nonzero AND wrote to stderr; any other patch-mechanism failure — a
nonzero patch exit with empty stderr, or a diff error while generating
the patch — is reported as success. -/
theorem claim3_amended (backupOk : Bool) (patchRes : PatchResult)
    (preview work : TreeC) (mf : List PathC) (backupFirst : Bool) :
    (applyChangesToWorking backupOk patchRes preview work mf backupFirst).result = false ↔
      ((backupFirst = true ∧ backupOk = false) ∨
        (AEvent.patchRun ∈
            (applyChangesToWorking backupOk patchRes preview work mf backupFirst).events ∧
          patchRes.stderr ≠ [] ∧ patchRes.returncode ≠ 0)) := by
  by_cases hb : backupFirst = true ∧ backupOk = false
  · have happ : applyChangesToWorking backupOk patchRes preview work mf backupFirst =
        ⟨false, [], work⟩ := by
      simp [applyChangesToWorking, hb.1, hb.2]
    rw [happ]
    simp [hb]
  · have hok : ¬(backupFirst = true ∧ ¬(backupOk = true)) := by
      intro h
      exact hb ⟨h.1, Bool.not_eq_true backupOk ▸ h.2⟩
    have hok2 : backupFirst = true → backupOk = true := by
      intro h1
      by_cases hk : backupOk = true
      · exact hk
      · exact absurd ⟨h1, hk⟩ hok
    by_cases hmf : mf = []
    · have happ : applyChangesToWorking backupOk patchRes preview work mf backupFirst =
          ⟨true, if backupFirst then [AEvent.backupCreated (gitFilter work)] else [], work⟩ := by
        simp [applyChangesToWorking, hb, hmf]
      rw [happ]
      constructor
      · intro h; simp at h
      · rintro (h | ⟨hmem, -⟩)
        · exact absurd h hb
        · revert hmem; cases backupFirst <;> simp
    · rcases hgp : genPatch preview work mf with ⟨r, w1, evs1⟩
      have hnop : AEvent.patchRun ∉ evs1 := by
        intro hmem
        rcases genPatch_events_touch preview mf work AEvent.patchRun
          (by rw [hgp]; exact hmem) with ⟨p, hp⟩
        cases hp
      have hnop0 : AEvent.patchRun ∉
          (if backupFirst then [AEvent.backupCreated (gitFilter work)] else []) := by
        cases backupFirst <;> simp
      cases r with
      | none =>
        have happ : applyChangesToWorking backupOk patchRes preview work mf backupFirst =
            ⟨true, (if backupFirst then [AEvent.backupCreated (gitFilter work)] else []) ++ evs1,
              w1⟩ := by
          simp [applyChangesToWorking, hb, hmf, hgp]
        rw [happ]
        constructor
        · intro h; simp at h
        · rintro (h | ⟨hmem, -⟩)
          · exact absurd h hb
          · rcases List.mem_append.mp hmem with h | h
            · exact (hnop0 h).elim
            · exact (hnop h).elim
      | some secs =>
        cases secs with
        | nil =>
          have happ : applyChangesToWorking backupOk patchRes preview work mf backupFirst =
              ⟨true, (if backupFirst then [AEvent.backupCreated (gitFilter work)] else []) ++ evs1,
                w1⟩ := by
            simp [applyChangesToWorking, hb, hmf, hgp]
          rw [happ]
          constructor
          · intro h; simp at h
          · rintro (h | ⟨hmem, -⟩)
            · exact absurd h hb
            · rcases List.mem_append.mp hmem with h | h
              · exact (hnop0 h).elim
              · exact (hnop h).elim
        | cons s ss =>
          by_cases hfail : patchRes.stderr ≠ [] ∧ patchRes.returncode ≠ 0
          · have happ : applyChangesToWorking backupOk patchRes preview work mf backupFirst =
                ⟨false,
                  ((if backupFirst then [AEvent.backupCreated (gitFilter work)] else []) ++ evs1)
                    ++ [AEvent.patchRun], w1⟩ := by
              simp [applyChangesToWorking, hb, hmf, hgp, hfail]
            rw [happ]
            simp [hfail]
          · have happ : applyChangesToWorking backupOk patchRes preview work mf backupFirst =
                ⟨true,
                  ((if backupFirst then [AEvent.backupCreated (gitFilter work)] else []) ++ evs1)
                    ++ [AEvent.patchRun], applySections (s :: ss) w1⟩ := by
              simp [applyChangesToWorking, hb, hmf, hgp, hfail]
            rw [happ]
            constructor
            · intro h; simp at h
            · rintro (h | ⟨-, hf1, hf2⟩)
              · exact absurd h hb
              · exact absurd ⟨hf1, hf2⟩ hfail

/-! ## Claims about the preview workspace lifecycle and staging copy -/

/-- Filtering a mapped list filters the preimages. -/
theorem map_filter_comm {α β : Type} (g : α → β) (p : β → Bool) (l : List α) :
    (l.map g).filter p = (l.filter fun a => p (g a)).map g := by
  induction l with
  | nil => simp
  | cons a t ih =>
    by_cases h : p (g a) = true
    · simp [h, ih]
    · simp only [List.map_cons, List.filter_cons]
      rw [if_neg h, if_neg h]
      exact ih

/-- The recursive `.git`-ignoring copy keeps exactly the files with no
`.git` path component. -/
theorem flatten_copyForest (f : FsForest) :
    flattenForest (copyForest f) =
      (flattenForest f).filter fun pc => !(pc.1.contains (tl ".git")) := by
  induction f using copyForest.induct with
  | case1 => simp [copyForest, flattenForest]
  | case2 c rest ih =>
    rw [copyForest, if_pos rfl, ih, flattenForest, List.filter_cons, if_neg (by simp)]
  | case3 n c rest hgit ih =>
    have hq : (!(([n] : List Str).contains (tl ".git"))) = true := by
      simp
      exact fun h => hgit h.symm
    rw [copyForest, if_neg hgit, flattenForest, flattenForest, ih, List.filter_cons, if_pos hq]
  | case4 f rest ih =>
    rw [copyForest, if_pos rfl, ih, flattenForest, List.filter_append, map_filter_comm]
    have hnil : ((flattenForest f).filter fun pc =>
        !(((tl ".git") :: pc.1 : List Str).contains (tl ".git"))) = [] := by
      apply List.filter_eq_nil_iff.mpr
      intro pc _
      simp
    rw [hnil]
    simp
  | case5 n f rest hgit ihf ih =>
    rw [copyForest, if_neg hgit, flattenForest, flattenForest, ihf, ih, List.filter_append,
      map_filter_comm]
    have hall : ∀ pc ∈ flattenForest f,
        (!((n :: pc.1 : List Str).contains (tl ".git"))) =
          (!(pc.1.contains (tl ".git"))) := by
      intro pc _
      by_cases hm : (tl ".git") ∈ pc.1
      · simp [hm]
      · simp [hm]
        exact fun h => hgit h.symm
    rw [List.filter_congr hall]

/-- C7 as amended: staging an empty change set produces a preview
byte-identical to the working tree minus the entries named `.git`
(at any level); no other ignore rule is applied by the copy. -/
theorem claim7_amended (content : Str) (w : FsForest)
    (h : (processChangesSimple content).1 = []) :
    flattenForest (stagePreview content w) =
      (flattenForest w).filter fun pc => !(pc.1.contains (tl ".git")) := by
  unfold stagePreview
  rw [h]
  simpa [List.foldl] using flatten_copyForest w

theorem claim7_witness :
    flattenForest (stagePreview []
      (FsForest.cons (FsEntry.file (tl "a.py") (tl "x"))
        (FsForest.cons (FsEntry.dir (tl ".git")
          (FsForest.cons (FsEntry.file (tl "HEAD") (tl "r")) FsForest.nil)) FsForest.nil))) =
      [([tl "a.py"], tl "x")] :=
  (claim7_amended []
    (FsForest.cons (FsEntry.file (tl "a.py") (tl "x"))
      (FsForest.cons (FsEntry.dir (tl ".git")
        (FsForest.cons (FsEntry.file (tl "HEAD") (tl "r")) FsForest.nil)) FsForest.nil))
    (by decide)).trans (by decide)

/-- C7, counterexample to the claim as stated: with an ignore rule
matching `*.log` supplied, the staged preview of a tree holding
`a.log` still contains `a.log` — the staging copy is byte-identical to
the tree minus `.git` only, not minus the ignore-rule matches. -/
theorem claim7_counterexample :
    (processChangesSimple []).1 = [] ∧
    flattenForest (stagePreview [] (FsForest.cons (FsEntry.file (tl "a.log") (tl "x")) FsForest.nil)) =
      [([tl "a.log"], tl "x")] ∧
    specPreviewExpected
      (flattenForest (FsForest.cons (FsEntry.file (tl "a.log") (tl "x")) FsForest.nil))
      (fun n => n = tl ".git") (fun p => p.any fun n => (tl ".log").isSuffixOf n) = [] ∧
    flattenForest (stagePreview [] (FsForest.cons (FsEntry.file (tl "a.log") (tl "x")) FsForest.nil)) ≠
      specPreviewExpected
        (flattenForest (FsForest.cons (FsEntry.file (tl "a.log") (tl "x")) FsForest.nil))
        (fun n => n = tl ".git") (fun p => p.any fun n => (tl ".log").isSuffixOf n) := by
  refine ⟨by decide, by decide, by decide, by decide⟩

/-- C6 as amended: every run places the preview workspace at the same
fixed path `codedriver_preview` inside the temporary directory,
deleting whatever previous preview workspace lived there; after the
run, the only directory at that path is the fresh copy of the working
tree. -/
theorem claim6_amended (tmp : TmpState) (w : FsForest) :
    (setupPreviewRun tmp w).2 = tl "codedriver_preview" ∧
    tmpLookup (setupPreviewRun tmp w).1 (tl "codedriver_preview") = some (copyForest w) ∧
    ∀ f, (tl "codedriver_preview", f) ∈ (setupPreviewRun tmp w).1 → f = copyForest w := by
  refine ⟨rfl, ?_, ?_⟩
  · simp only [setupPreviewRun, tmpLookup]
    rw [List.find?_cons_of_pos _ (by simp)]
    rfl
  · intro f hf
    simp only [setupPreviewRun] at hf
    rcases List.mem_cons.mp hf with h | h
    · exact congrArg Prod.snd h
    · by_cases hany : tmp.any (fun e => e.1 = tl "codedriver_preview") = true
      · rw [if_pos hany] at h
        have := (List.mem_filter.mp h).2
        simp at this
      · rw [if_neg hany] at h
        exact absurd (List.any_eq_true.mpr ⟨(tl "codedriver_preview", f), h, by simp⟩) hany

theorem claim6_witness :
    (tl "codedriver_preview", FsForest.cons (FsEntry.file (tl "old.txt") (tl "z")) FsForest.nil) ∉
      (setupPreviewRun
        [(tl "codedriver_preview", FsForest.cons (FsEntry.file (tl "old.txt") (tl "z")) FsForest.nil)]
        (FsForest.cons (FsEntry.file (tl "a.py") (tl "y")) FsForest.nil)).1 := by
  intro h
  have := (claim6_amended
    [(tl "codedriver_preview", FsForest.cons (FsEntry.file (tl "old.txt") (tl "z")) FsForest.nil)]
    (FsForest.cons (FsEntry.file (tl "a.py") (tl "y")) FsForest.nil)).2.2 _ h
  exact absurd this (by decide)

/-- C6, counterexample to the claim as stated: a later run deletes the
previous preview workspace — the old directory content at the fixed
preview path is gone after `_setup_preview_dir` runs again, and the
path itself is reused. -/
theorem claim6_counterexample :
    (tl "codedriver_preview", FsForest.cons (FsEntry.file (tl "old.txt") (tl "z")) FsForest.nil) ∈
      ([(tl "codedriver_preview", FsForest.cons (FsEntry.file (tl "old.txt") (tl "z")) FsForest.nil)] :
        TmpState) ∧
    (tl "codedriver_preview", FsForest.cons (FsEntry.file (tl "old.txt") (tl "z")) FsForest.nil) ∉
      (setupPreviewRun
        [(tl "codedriver_preview", FsForest.cons (FsEntry.file (tl "old.txt") (tl "z")) FsForest.nil)]
        (FsForest.cons (FsEntry.file (tl "a.py") (tl "y")) FsForest.nil)).1 ∧
    (setupPreviewRun
      [(tl "codedriver_preview", FsForest.cons (FsEntry.file (tl "old.txt") (tl "z")) FsForest.nil)]
      (FsForest.cons (FsEntry.file (tl "a.py") (tl "y")) FsForest.nil)).2 = tl "codedriver_preview" := by
  refine ⟨by decide, by decide, by decide⟩

/-! ## Facts about `_hash_content` output and whitespace scanning -/

theorem leBytes_length (k x : Nat) : (leBytes k x).length = k := by
  induction k generalizing x with
  | zero => rfl
  | succ n ih => simp [leBytes, ih]

theorem md5Digest_length (msg : List Nat) : (md5Digest msg).length = 16 := by
  simp [md5Digest, leBytes_length]

theorem hexOfBytes_length (bs : List Nat) : (hexOfBytes bs).length = 2 * bs.length := by
  induction bs with
  | nil => rfl
  | cons b t ih => simp [hexOfBytes] at ih ⊢; omega

/-- The short hash always has exactly 8 characters. -/
theorem hashContent_length (s : Str) : (hashContent s).length = 8 := by
  simp [hashContent, hexOfBytes_length, md5Digest_length]

theorem hexChar_mem (n : Nat) : hexChar n ∈ hexTable := by
  by_cases h : n < hexTable.length
  · rw [hexChar, List.getD_eq_getElem _ _ h]
    exact List.getElem_mem h
  · rw [hexChar, List.getD_eq_default _ _ (Nat.le_of_not_lt h)]
    decide

theorem isHexLower_of_mem (c : Char) (h : c ∈ hexTable) : isHexLower c = true := by
  simpa [isHexLower] using h

/-- Every character of the short hash is a lowercase hex digit. -/
theorem hashContent_hex (s : Str) : ∀ c ∈ hashContent s, isHexLower c = true := by
  intro c hc
  have h1 : c ∈ hexOfBytes (md5Digest (utf8Bytes s)) := List.mem_of_mem_take hc
  simp only [hexOfBytes, List.mem_flatMap] at h1
  rcases h1 with ⟨b, -, hmem⟩
  simp only [List.mem_cons, List.mem_singleton] at hmem
  rcases hmem with rfl | rfl | h
  · exact isHexLower_of_mem _ (hexChar_mem _)
  · exact isHexLower_of_mem _ (hexChar_mem _)
  · simp at h

theorem hex_not_space (c : Char) (h : isHexLower c = true) : pyIsSpace c = false := by
  have hm : c ∈ hexTable := by
    simpa [isHexLower] using h
  have hall : ∀ x ∈ hexTable, pyIsSpace x = false := by decide
  exact hall c hm

/-- `dropWhile` distributes over an append whose left part is not
dropped entirely. -/
theorem dropWhile_append_left (p : Char → Bool) (A B : Str) (h : A.dropWhile p ≠ []) :
    (A ++ B).dropWhile p = A.dropWhile p ++ B := by
  induction A with
  | nil => exact absurd rfl h
  | cons a t ih =>
    by_cases ha : p a = true
    · rw [List.dropWhile_cons_of_pos ha] at h ⊢
      rw [List.cons_append, List.dropWhile_cons_of_pos ha]
      exact ih h
    · rw [List.dropWhile_cons_of_neg (by simp [ha])] at h ⊢
      rw [List.cons_append,
        List.dropWhile_cons_of_neg (by simp [ha])]

/-- If nothing of `A` survives `dropWhile p`, it disappears from an
append. -/
theorem dropWhile_append_all (p : Char → Bool) (A B : Str) (h : A.dropWhile p = []) :
    (A ++ B).dropWhile p = B.dropWhile p := by
  induction A with
  | nil => simp
  | cons a t ih =>
    by_cases ha : p a = true
    · rw [List.dropWhile_cons_of_pos ha] at h
      rw [List.cons_append, List.dropWhile_cons_of_pos ha]
      exact ih h
    · rw [List.dropWhile_cons_of_neg (by simp [ha])] at h
      exact absurd h (List.cons_ne_nil a t)

/-- If a list fully dissolves under `dropWhile`, its last element
satisfies the predicate. -/
theorem dropWhile_eq_nil_last (p : Char → Bool) (A : Str)
    (h : A.dropWhile p = []) : ∀ c0, A.getLast? = some c0 → p c0 = true := by
  intro c0 hl
  have hall := List.dropWhile_eq_nil_iff.mp h
  rcases List.mem_getLast?_eq_getLast (Option.mem_def.mpr hl) with ⟨hA, hc⟩
  rw [hc]
  exact hall _ (List.getLast_mem hA)

/-! ## The lazy body group on a clean block -/

/-- Any non-empty list splits off its last element. -/
theorem exists_append_singleton {α : Type} (l : List α) (h : l ≠ []) :
    ∃ L b, l = L ++ [b] := by
  induction l with
  | nil => exact absurd rfl h
  | cons a t ih =>
    cases t with
    | nil => exact ⟨[], a, rfl⟩
    | cons b u =>
      obtain ⟨L, c, hc⟩ := ih (List.cons_ne_nil b u)
      exact ⟨a :: L, c, by rw [hc, List.cons_append]⟩

/-- `expectLit` fails when the first characters differ. -/
theorem expectLit_ne_head (lit : Str) (a : Char) (rest : Str) (d : Char) (r : Str)
    (hlit : lit = a :: rest) (hd : ¬a = d) : expectLit lit (d :: r) = none := by
  rw [hlit, expectLit, if_neg]
  intro hp
  simp [List.isPrefixOf] at hp
  exact hd hp.1

/-- The tail pattern `\s*` + `E0` + `\s*FILE` fails wherever the text,
after its whitespace run, starts with a character other than `@`. -/
theorem tailAfterBody_none (rest : Str) (d : Char) (r : Str)
    (hdr : dropSp rest = d :: r) (hd : d ≠ '@') : tailAfterBody E0 rest = none := by
  simp only [tailAfterBody, hdr]
  rw [expectLit_ne_head E0 '@' (tl "==CODEDRIVER==Gh3Ij4Kl==@") d r (by decide)
    (fun he => hd he.symm)]

/-- On a body with no `@` and no trailing whitespace, the lazy group
consumes exactly the body: every internal newline is followed (after
whitespace) by a non-`@` character, so only the final newline matches
the closing delimiter. -/
theorem findBody_clean (C : Str) (hat : '@' ∉ C)
    (hlast : ∀ c0, C.getLast? = some c0 → pyIsSpace c0 = false) :
    findBody E0 (C ++ (tl "\n" ++ (E0 ++ tl " FILE"))) = some (C, []) := by
  induction C with
  | nil =>
    show findBody E0 (tl "\n" ++ (E0 ++ tl " FILE")) = some ([], [])
    decide
  | cons c C' ih =>
    have hat' : '@' ∉ C' := fun hm => hat (List.mem_cons_of_mem c hm)
    have hlast' : ∀ c0, C'.getLast? = some c0 → pyIsSpace c0 = false := by
      intro c0 h0
      apply hlast
      cases C' with
      | nil => simp at h0
      | cons d t => rw [List.getLast?_cons_cons]; exact h0
    have hrec := ih hat' hlast'
    rw [List.cons_append, findBody]
    by_cases hc : c = '\n'
    · have hC'ne : C'.dropWhile pyIsSpace ≠ [] := by
        intro hnil
        cases hC' : C' with
        | nil =>
          have := hlast c (by rw [hC']; rfl)
          rw [hc] at this
          simp [pyIsSpace] at this
        | cons d t =>
          have hC'ne2 : C' ≠ [] := by rw [hC']; exact List.cons_ne_nil d t
          obtain ⟨L, a, hca⟩ := exists_append_singleton C' hC'ne2
          have hg : C'.getLast? = some a := by rw [hca]; exact List.getLast?_concat L
          have h1 := dropWhile_eq_nil_last pyIsSpace C' hnil a hg
          have h2 := hlast' a hg
          rw [h1] at h2
          exact absurd h2 (by decide)
      obtain ⟨d, r, hdr⟩ : ∃ d r, C'.dropWhile pyIsSpace = d :: r := by
        cases hx : C'.dropWhile pyIsSpace with
        | nil => exact absurd hx hC'ne
        | cons d r => exact ⟨d, r, rfl⟩
      have hdns : pyIsSpace d = false :=
        dropWhile_head?_not pyIsSpace C' d (by rw [hdr]; rfl)
      have hdmem : d ∈ C' := by
        have hs := List.dropWhile_sublist (l := C') (p := pyIsSpace)
        exact hs.subset (by rw [hdr]; exact List.mem_cons_self d r)
      have hdat : d ≠ '@' := fun he => hat' (he ▸ hdmem)
      have htail : tailAfterBody E0 (C' ++ (tl "\n" ++ (E0 ++ tl " FILE"))) = none := by
        apply tailAfterBody_none _ d (r ++ (tl "\n" ++ (E0 ++ tl " FILE")))
        · show (C' ++ (tl "\n" ++ (E0 ++ tl " FILE"))).dropWhile pyIsSpace = _
          rw [dropWhile_append_left pyIsSpace C' _ hC'ne, hdr, List.cons_append]
        · exact hdat
      rw [if_pos hc, htail, hrec]
      rfl
    · rw [if_neg hc, hrec]
      rfl

/-! ## The round-trip claim -/

/-- `matchBodyPart` on a clean block body. -/
theorem matchBodyPart_clean (C : Str) (hne : C ≠ []) (hat : '@' ∉ C)
    (hstrip : pyStrip C = C) :
    matchBodyPart E0 (tl "\n" ++ (C ++ (tl "\n" ++ (E0 ++ tl " FILE")))) = some (C, []) := by
  obtain ⟨c0, C', hC⟩ : ∃ c0 C', C = c0 :: C' := by
    cases C with
    | nil => exact absurd rfl hne
    | cons a t => exact ⟨a, t, rfl⟩
  have hhead : pyIsSpace c0 = false := pyStrip_head C c0 (by rw [hstrip, hC]; rfl)
  have hnl : pyIsSpace '\n' = true := by decide
  have hrun : (tl "\n" ++ (C ++ (tl "\n" ++ (E0 ++ tl " FILE")))).takeWhile pyIsSpace =
      ['\n'] := by
    simp [tl, hC, List.takeWhile_cons, hnl, hhead]
  have hdrop : (tl "\n" ++ (C ++ (tl "\n" ++ (E0 ++ tl " FILE")))).drop 1 =
      C ++ (tl "\n" ++ (E0 ++ tl " FILE")) := by
    simp [tl]
  have hlast : ∀ c1, C.getLast? = some c1 → pyIsSpace c1 = false := by
    intro c1 h1
    exact pyStrip_last C c1 (by rw [hstrip]; exact h1)
  have hnp : newlinePosDesc ['\n'] = [0] := by decide
  simp only [matchBodyPart, hrun, hnp, List.findSome?_cons, hdrop,
    findBody_clean C hat hlast]

/-- `scanMatches` on the empty text. -/
theorem scanMatches_nil (S E : Str) (fuel : Nat) : scanMatches S E fuel [] = [] := by
  cases fuel with
  | zero => rfl
  | succ n => rfl

/-- One successful scan step. -/
theorem scanMatches_start_match (S E : Str) (fuel : Nat) (text : Str) (m : RawMatch)
    (rem : Str) (hne : text ≠ []) (hp : S.isPrefixOf text = true)
    (hm : matchAfterStart E (text.drop S.length) = some (m, rem)) :
    scanMatches S E (fuel + 1) text = m :: scanMatches S E fuel rem := by
  cases text with
  | nil => exact absurd rfl hne
  | cons c t => simp only [scanMatches, hp, if_true, hm]

/-- A list is a prefix of itself extended. -/
theorem isPrefixOf_append_self (l r : Str) : l.isPrefixOf (l ++ r) = true := by
  induction l with
  | nil => simp [List.isPrefixOf]
  | cons a t ih => simp [List.isPrefixOf, ih]

/-- C5: a single well-formed `FILE CREATE x.py H` block whose body `C`
carries no `@` (so it cannot collide with the session delimiters), is
non-empty and has no surrounding whitespace, with `H = shortHash(C)`,
parses to exactly one change `{create, x.py, H, C}`, and that change
passes verification and is staged with content exactly `C`. -/
theorem claim5_roundtrip (C : Str) (hne : C ≠ []) (hat : '@' ∉ C)
    (hstrip : pyStrip C = C) :
    parseFileChanges S0 E0
        (S0 ++ (tl " FILE CREATE x.py " ++ (hashContent C ++ (tl "\n" ++ (C ++ (tl "\n" ++
          (E0 ++ tl " FILE"))))))) =
      [⟨tl "create", tl "x.py", hashContent C, C⟩] ∧
    (∀ wt : List Str, stepChange wt ⟨tl "create", tl "x.py", hashContent C, C⟩ =
      ⟨[(tl "x.py", C)], [(tl "x.py", tl "create")], []⟩) := by
  have hlen := hashContent_length C
  have hhex := hashContent_hex C
  have hHdrop : ∀ X : Str, (hashContent C ++ X).dropWhile pyIsSpace = hashContent C ++ X := by
    intro X
    cases hHc : hashContent C with
    | nil => rw [hHc] at hlen; simp at hlen
    | cons h0 H2 =>
      rw [List.cons_append, List.dropWhile_cons_of_neg]
      have hh := hex_not_space h0 (hhex h0 (by rw [hHc]; exact List.mem_cons_self h0 H2))
      simp [hh]
  have m1 : ∀ X : Str, dropSp (tl " FILE CREATE x.py " ++ X) =
      tl "FILE CREATE x.py " ++ X := by
    intro X
    simp [tl, dropSp, pyIsSpace]
  have m2 : ∀ X : Str, expectLit (tl "FILE") (tl "FILE CREATE x.py " ++ X) =
      some (tl " CREATE x.py " ++ X) := by
    intro X
    simp [tl, expectLit, List.isPrefixOf]
  have m3 : ∀ X : Str, reqSpaces (tl " CREATE x.py " ++ X) = some (tl "CREATE x.py " ++ X) := by
    intro X
    simp [tl, reqSpaces, pyIsSpace]
  have m4 : ∀ X : Str, pickOp (tl "CREATE x.py " ++ X) = some (tl "CREATE", tl " x.py " ++ X) := by
    intro X
    simp [tl, pickOp, List.isPrefixOf]
  have m5 : ∀ X : Str, reqSpaces (tl " x.py " ++ X) = some (tl "x.py " ++ X) := by
    intro X
    simp [tl, reqSpaces, pyIsSpace]
  have m6 : ∀ X : Str, (tl "x.py " ++ X).takeWhile (fun c => !pyIsSpace c) = tl "x.py" := by
    intro X
    simp [tl, pyIsSpace]
  have m7 : ∀ X : Str, (tl "x.py " ++ X).drop (tl "x.py").length = tl " " ++ X := by
    intro X
    simp [tl]
  have m8 : ∀ X : Str, reqSpaces (tl " " ++ (hashContent C ++ X)) =
      some (hashContent C ++ X) := by
    intro X
    have h1 : tl " " ++ (hashContent C ++ X) = ' ' :: (hashContent C ++ X) := by
      simp [tl]
    rw [h1, reqSpaces, if_pos (by decide), hHdrop X]
  have m9t : ∀ X : Str, (hashContent C ++ X).take 8 = hashContent C := fun X =>
    List.take_left' hlen
  have m9d : ∀ X : Str, (hashContent C ++ X).drop 8 = X := fun X => List.drop_left' hlen
  have m10 : (decide ((hashContent C).length = 8) && (hashContent C).all isHexLower) = true := by
    rw [List.all_eq_true.mpr hhex, hlen]
    simp
  have hbody := matchBodyPart_clean C hne hat hstrip
  have hmatch : matchAfterStart E0
      (tl " FILE CREATE x.py " ++ (hashContent C ++ (tl "\n" ++ (C ++ (tl "\n" ++
        (E0 ++ tl " FILE")))))) =
      some (⟨tl "CREATE", tl "x.py", hashContent C, C⟩, ([] : Str)) := by
    have hxp : ¬(tl "x.py" = []) := by decide
    simp only [matchAfterStart, m1, m2, m3, m4, m5, m6, m7, m8, m9t, m9d, m10, hbody,
      if_true, hxp, if_neg, if_false]
  have hpre := isPrefixOf_append_self S0
    (tl " FILE CREATE x.py " ++ (hashContent C ++ (tl "\n" ++ (C ++ (tl "\n" ++
      (E0 ++ tl " FILE"))))))
  have hdropS := List.drop_left S0
    (tl " FILE CREATE x.py " ++ (hashContent C ++ (tl "\n" ++ (C ++ (tl "\n" ++
      (E0 ++ tl " FILE"))))))
  have hTne : S0 ++ (tl " FILE CREATE x.py " ++ (hashContent C ++ (tl "\n" ++ (C ++
      (tl "\n" ++ (E0 ++ tl " FILE")))))) ≠ [] := by
    simp [S0, tl]
  have hscan := scanMatches_start_match S0 E0
    ((S0 ++ (tl " FILE CREATE x.py " ++ (hashContent C ++ (tl "\n" ++ (C ++ (tl "\n" ++
      (E0 ++ tl " FILE"))))))).length)
    (S0 ++ (tl " FILE CREATE x.py " ++ (hashContent C ++ (tl "\n" ++ (C ++ (tl "\n" ++
      (E0 ++ tl " FILE")))))))
    ⟨tl "CREATE", tl "x.py", hashContent C, C⟩ [] hTne hpre
    (by rw [hdropS]; exact hmatch)
  constructor
  · rw [parseFileChanges, reFinditer, hscan, scanMatches_nil]
    simp only [List.map_cons, List.map_nil, toFileChange]
    rw [hstrip]
    rw [show pyLower (tl "CREATE") = tl "create" from by decide,
      show pyStrip (tl "x.py") = tl "x.py" from by decide]
  · intro wt
    have hcd : ¬(tl "create" = tl "delete") := by decide
    simp [stepChange, hcd, hne]

theorem claim5_witness :
    parseFileChanges S0 E0
        (S0 ++ (tl " FILE CREATE x.py " ++ (hashContent (tl "print(1)") ++ (tl "\n" ++
          ((tl "print(1)") ++ (tl "\n" ++ (E0 ++ tl " FILE"))))))) =
      [⟨tl "create", tl "x.py", hashContent (tl "print(1)"), tl "print(1)"⟩] ∧
    stepChange [] ⟨tl "create", tl "x.py", hashContent (tl "print(1)"), tl "print(1)"⟩ =
      ⟨[(tl "x.py", tl "print(1)")], [(tl "x.py", tl "create")], []⟩ := by
  have h := claim5_roundtrip (tl "print(1)") (by decide) (by decide) (by decide)
  exact ⟨h.1, h.2 []⟩
